import Mathlib

/-!
Verification of the terminal stream-processing core of the polymarket
console application.  Strings are modelled as `List Char`; the JavaScript
functions `wrapText`, `updateMessage`, the scroll-window arithmetic,
`consumeMouseScroll`, `stripInputArtifacts` and `extractTagFromBuffer`
from `src/polymarket-demo.ts` are embedded as executable Lean functions.
JavaScript regular-expression replacement is embedded as a left-to-right
scan with an explicit matcher per pattern; the relevant patterns are
deterministic (no observable backtracking), which is argued pattern by
pattern in the comments next to each matcher.
-/

namespace Polymarket

/-! ## Line wrapper (`wrapText`) -/

/-- JavaScript `String.split` with a one-character separator:
the empty string yields `[""]`, separators at the ends yield empty pieces. -/
def splitOnChar (sep : Char) : List Char → List (List Char)
  | [] => [[]]
  | c :: rest =>
    if c = sep then [] :: splitOnChar sep rest
    else
      match splitOnChar sep rest with
      | [] => [[c]]
      | s :: ss => (c :: s) :: ss

/-- Body of the `while (remaining.length > maxWidth)` hard-split loop of
`wrapText`, with an explicit fuel argument; fuel `word.length` is always
enough because each iteration consumes `w ≥ 1` characters.  Returns the
pushed fragments and the final `remaining`.  The `0 < w` guard is vacuous
at every call site (the loop only runs with `maxWidth ≥ 1`). -/
def hardSplitAux (w : Nat) : Nat → List Char → List (List Char) × List Char
  | 0, word => ([], word)
  | fuel + 1, word =>
    if w < word.length ∧ 0 < w then
      let p := hardSplitAux w fuel (word.drop w)
      (word.take w :: p.1, p.2)
    else ([], word)

def hardSplit (w : Nat) (word : List Char) : List (List Char) × List Char :=
  hardSplitAux w word.length word

/-- The `for (const word of words)` loop of `wrapText`: greedy packing with
accumulator `current`, ending with the final `if (current.length > 0)` push. -/
def packWords (maxWidth : Int) : List (List Char) → List Char → List (List Char)
  | [], current => if 0 < current.length then [current] else []
  | word :: ws, current =>
    let next := if 0 < current.length then current ++ ' ' :: word else word
    if (next.length : Int) ≤ maxWidth then packWords maxWidth ws next
    else
      (if 0 < current.length then [current] else []) ++
        (if maxWidth < (word.length : Int) then
          (hardSplit maxWidth.toNat word).1 ++
            packWords maxWidth ws (hardSplit maxWidth.toNat word).2
        else packWords maxWidth ws word)

/-- `wrapText` from `src/polymarket-demo.ts`. -/
def wrapText (text : List Char) (maxWidth : Int) : List (List Char) :=
  if maxWidth ≤ 0 then [text]
  else
    let lines :=
      (splitOnChar (Char.ofNat 10) text).map (fun paragraph =>
        if (paragraph.length : Int) ≤ maxWidth then [paragraph]
        else packWords maxWidth (splitOnChar ' ' paragraph) [])
    let lines := lines.flatten
    if 0 < lines.length then lines else [[]]

lemma mem_hardSplitAux_fst (w : Nat) :
    ∀ (fuel : Nat) (word l : List Char), l ∈ (hardSplitAux w fuel word).1 → l.length ≤ w := by
  intro fuel
  induction fuel with
  | zero => intro word l h; simp [hardSplitAux] at h
  | succ n ih =>
    intro word l h
    simp only [hardSplitAux] at h
    split at h
    · rcases List.mem_cons.mp h with h1 | h2
      · subst h1; simp [List.length_take]
      · exact ih _ _ h2
    · simp at h

lemma hardSplitAux_snd_le (w : Nat) (hw : 0 < w) :
    ∀ (fuel : Nat) (word : List Char), word.length ≤ fuel + w →
      (hardSplitAux w fuel word).2.length ≤ w := by
  intro fuel
  induction fuel with
  | zero => intro word h; simpa [hardSplitAux] using h
  | succ n ih =>
    intro word h
    simp only [hardSplitAux]
    split
    · next hcond =>
      apply ih
      simp only [List.length_drop]
      omega
    · next hcond =>
      simp only [not_and, not_lt] at hcond
      rcases Nat.lt_or_ge w word.length with hlt | hge
      · exact absurd (hcond hlt) (by omega)
      · exact hge

lemma hardSplit_snd_le (w : Nat) (hw : 0 < w) (word : List Char) :
    (hardSplit w word).2.length ≤ w :=
  hardSplitAux_snd_le w hw word.length word (by omega)

lemma packWords_bound (maxW : Int) (hw : 1 ≤ maxW) :
    ∀ (ws : List (List Char)) (current : List Char),
      (current.length : Int) ≤ maxW →
      ∀ l ∈ packWords maxW ws current, (l.length : Int) ≤ maxW := by
  intro ws
  induction ws with
  | nil =>
    intro current hc l hl
    simp only [packWords] at hl
    split at hl
    · rcases List.mem_singleton.mp hl with h1; subst h1; exact hc
    · simp at hl
  | cons word ws ih =>
    intro current hc l hl
    simp only [packWords] at hl
    by_cases hcur : 0 < current.length
    · rw [if_pos hcur, if_pos hcur] at hl
      by_cases hnext : (((current ++ ' ' :: word).length : Int) ≤ maxW)
      · rw [if_pos hnext] at hl
        exact ih _ hnext l hl
      · rw [if_neg hnext] at hl
        rcases List.mem_append.mp hl with h1 | h2
        · rcases List.mem_singleton.mp h1 with h; subst h; exact hc
        · by_cases hlong : maxW < (word.length : Int)
          · rw [if_pos hlong] at h2
            rcases List.mem_append.mp h2 with h3 | h4
            · have := mem_hardSplitAux_fst maxW.toNat word.length word l h3
              omega
            · refine ih _ ?_ l h4
              have hsnd := hardSplit_snd_le maxW.toNat (by omega) word
              omega
          · rw [if_neg hlong] at h2
            push_neg at hlong
            exact ih _ hlong l h2
    · rw [if_neg hcur, if_neg hcur] at hl
      by_cases hnext : ((word.length : Int) ≤ maxW)
      · rw [if_pos hnext] at hl
        exact ih _ hnext l hl
      · rw [if_neg hnext] at hl
        simp only [List.nil_append] at hl
        by_cases hlong : maxW < (word.length : Int)
        · rw [if_pos hlong] at hl
          rcases List.mem_append.mp hl with h3 | h4
          · have := mem_hardSplitAux_fst maxW.toNat word.length word l h3
            omega
          · refine ih _ ?_ l h4
            have hsnd := hardSplit_snd_le maxW.toNat (by omega) word
            omega
        · push_neg at hnext hlong
          omega

/-- Claim C10: for every text and every maxWidth at least 1, each line
returned by `wrapText` has length at most maxWidth, including the
hard-split fragments of over-long words. -/
theorem wrapText_width_bound (text : List Char) (maxW : Int) (hw : 1 ≤ maxW)
    (l : List Char) (hl : l ∈ wrapText text maxW) : (l.length : Int) ≤ maxW := by
  have hpos : ¬ maxW ≤ 0 := by omega
  simp only [wrapText, if_neg hpos] at hl
  split at hl
  · rcases List.mem_flatten.mp hl with ⟨s, hs, hls⟩
    rcases List.mem_map.mp hs with ⟨paragraph, _, hpar⟩
    subst hpar
    split at hls
    · next hfit => rcases List.mem_singleton.mp hls with h; subst h; exact hfit
    · exact packWords_bound maxW hw _ [] (by simp; omega) l hls
  · rcases List.mem_singleton.mp hl with h; subst h; simp; omega

/-- Witness for C10 at a concrete input. -/
theorem wrapText_width_bound_witness :
    (1 : Int) ≤ 2 ∧ ('a' :: 'b' :: []) ∈ wrapText ("ab cd".toList) 2 ∧
      ((('a' :: 'b' :: []).length : Int) ≤ 2) :=
  ⟨by decide, by decide, wrapText_width_bound ("ab cd".toList) 2 (by decide)
    ('a' :: 'b' :: []) (by decide)⟩

/-- Claim C6: the line wrapper contract: result never empty; empty input
with positive width yields one empty line; non-positive width returns the
text unmodified; the two concrete examples of the spec, including the
fragment lengths and concatenation property of the hard-split example. -/
theorem wrapText_contract :
    (∀ (text : List Char) (maxW : Int), wrapText text maxW ≠ []) ∧
    (∀ N : Int, 0 < N → wrapText [] N = [[]]) ∧
    (∀ (text : List Char) (maxW : Int), maxW ≤ 0 → wrapText text maxW = [text]) ∧
    wrapText ("a b c".toList) 3 = ["a b".toList, "c".toList] ∧
    wrapText ("supercalifragilistic".toList) 5 =
      ["super".toList, "calif".toList, "ragil".toList, "istic".toList] ∧
    (∀ l ∈ wrapText ("supercalifragilistic".toList) 5, l.length ≤ 5) ∧
    (wrapText ("supercalifragilistic".toList) 5).flatten = "supercalifragilistic".toList := by
  refine ⟨?_, ?_, ?_, by decide, by decide, by decide, by decide⟩
  · intro text maxW
    simp only [wrapText]
    split
    · simp
    · split
      · next h => exact List.ne_nil_of_length_pos h
      · simp
  · intro N hN
    have h1 : ¬ (N ≤ 0) := by omega
    have h2 : (0 : Int) ≤ N := by omega
    simp [wrapText, splitOnChar, h1, h2]
  · intro text maxW h
    simp [wrapText, h]

/-- Witness for C6 at a concrete input. -/
theorem wrapText_contract_witness :
    (0 : Int) < 7 ∧ wrapText [] 7 = [[]] :=
  ⟨by decide, wrapText_contract.2.1 7 (by decide)⟩

/-! ## Chat messages (`updateMessage`) -/

inductive ChatRole where
  | user
  | assistant
  | system
deriving DecidableEq

structure ChatMessage where
  id : String
  role : ChatRole
  content : String
  timestamp : Nat
deriving DecidableEq

/-- `updateMessage` from `src/polymarket-demo.ts`:
`prev.map((msg) => (msg.id === id ? { ...msg, content } : msg))`. -/
def updateMessage (id : String) (content : String) (messages : List ChatMessage) :
    List ChatMessage :=
  messages.map (fun msg => if msg.id = id then { msg with content := content } else msg)

/-- Claim C9: `updateMessage` preserves list length and order, leaves every
message with a non-matching id unchanged, and replaces only the content of a
matching message, keeping its id, role and timestamp. -/
theorem updateMessage_frame (messages : List ChatMessage) (id content : String)
    (i : Nat) (m : ChatMessage) (h : messages.get? i = some m) :
    (updateMessage id content messages).length = messages.length ∧
    (updateMessage id content messages).get? i =
      some (if m.id = id then { m with content := content } else m) ∧
    (m.id ≠ id → (updateMessage id content messages).get? i = some m) ∧
    (m.id = id →
      (updateMessage id content messages).get? i = some { m with content := content } ∧
      ({ m with content := content } : ChatMessage).id = m.id ∧
      ({ m with content := content } : ChatMessage).role = m.role ∧
      ({ m with content := content } : ChatMessage).timestamp = m.timestamp ∧
      ({ m with content := content } : ChatMessage).content = content) := by
  have h2 : messages[i]? = some m := by simpa [List.get?_eq_getElem?] using h
  refine ⟨by simp [updateMessage], ?_, ?_, ?_⟩
  · simp [updateMessage, List.get?_eq_getElem?, h2]
  · intro hne
    simp [updateMessage, List.get?_eq_getElem?, h2, hne]
  · intro heq
    refine ⟨?_, rfl, rfl, rfl, rfl⟩
    simp [updateMessage, List.get?_eq_getElem?, h2, heq]

/-- Witness for C9 at a concrete two-message list. -/
theorem updateMessage_frame_witness :
    ([⟨"a", ChatRole.user, "x", 3⟩, ⟨"b", ChatRole.assistant, "y", 4⟩] :
        List ChatMessage).get? 1 = some ⟨"b", ChatRole.assistant, "y", 4⟩ ∧
    (updateMessage "b" "z"
        [⟨"a", ChatRole.user, "x", 3⟩, ⟨"b", ChatRole.assistant, "y", 4⟩]).get? 1 =
      some ⟨"b", ChatRole.assistant, "z", 4⟩ :=
  ⟨by decide, by
    have h := updateMessage_frame
      [⟨"a", ChatRole.user, "x", 3⟩, ⟨"b", ChatRole.assistant, "y", 4⟩] "b" "z" 1
      ⟨"b", ChatRole.assistant, "y", 4⟩ (by decide)
    simpa using (h.2.2.2 rfl).1⟩

/-! ## Scroll window (ChatPanel / SidebarPanel) -/

/-- The scroll-window arithmetic of `ChatPanel` and `SidebarPanel` in
`src/polymarket-demo.ts`: `maxScroll = max(0, totalLines - height)`,
`effectiveOffset = Math.min(scrollOffset, maxScroll)`,
`startIdx = max(0, totalLines - height - effectiveOffset)`,
`endIdx = min(totalLines, startIdx + height)`.
Returns `(effectiveOffset, startIdx, endIdx)`. -/
def scrollWindow (totalLines viewportHeight requestedOffset : Int) : Int × Int × Int :=
  let maxScroll := max 0 (totalLines - viewportHeight)
  let effectiveOffset := min requestedOffset maxScroll
  let startIdx := max 0 (totalLines - viewportHeight - effectiveOffset)
  let endIdx := min totalLines (startIdx + viewportHeight)
  (effectiveOffset, startIdx, endIdx)

/-- Modelled from the spec words of claim C7 for comparison: identical except
that the effective offset is `clamp(requestedOffset, 0, maxScroll)`. -/
def scrollWindowSpec (totalLines viewportHeight requestedOffset : Int) : Int × Int × Int :=
  let maxScroll := max 0 (totalLines - viewportHeight)
  let effectiveOffset := min (max requestedOffset 0) maxScroll
  let startIdx := max 0 (totalLines - viewportHeight - effectiveOffset)
  let endIdx := min totalLines (startIdx + viewportHeight)
  (effectiveOffset, startIdx, endIdx)

/-- Counterexample to claim C7 as stated: at `requestedOffset = -5` the code
computes `effectiveOffset = -5` and `startIndex = 45`, not the clamped
`effectiveOffset = 0`, `startIndex = 40` the claim asserts for every integer
requested offset. -/
theorem scrollWindow_clamp_cex :
    scrollWindow 50 10 (-5) = (-5, 45, 50) ∧
    scrollWindowSpec 50 10 (-5) = (0, 40, 50) ∧
    scrollWindow 50 10 (-5) ≠ scrollWindowSpec 50 10 (-5) := by
  refine ⟨by decide, by decide, by decide⟩

/-- Claim C7 as amended: for every nonnegative requested offset the code's
window equals the clamped-window specification, and the two concrete examples
of the spec hold. -/
theorem scrollWindow_clamped (totalLines viewportHeight requestedOffset : Int)
    (h : 0 ≤ requestedOffset) :
    scrollWindow totalLines viewportHeight requestedOffset =
      scrollWindowSpec totalLines viewportHeight requestedOffset ∧
    scrollWindow 50 10 0 = (0, 40, 50) ∧
    scrollWindow 50 10 100 = (40, 0, 10) := by
  refine ⟨?_, by decide, by decide⟩
  have hmax : max requestedOffset 0 = requestedOffset := by omega
  simp only [scrollWindow, scrollWindowSpec, hmax]

/-- Witness for C7 at a concrete input. -/
theorem scrollWindow_clamped_witness :
    (0 : Int) ≤ 3 ∧ scrollWindow 7 2 3 = scrollWindowSpec 7 2 3 :=
  ⟨by decide, (scrollWindow_clamped 7 2 3 (by decide)).1⟩

/-! ## Mouse-scroll decoder (`consumeMouseScroll`) -/

def isDigitChar (c : Char) : Bool := 48 ≤ c.toNat && c.toNat ≤ 57

/-- Greedy `\d+`: consumes a maximal nonempty digit run, returning its length
and the rest.  The surrounding patterns continue with `;`, `m` or `M`, which
are not digits, so the greedy run is exactly what the JS regex engine takes. -/
def takeDigits1 : List Char → Option (Nat × List Char)
  | [] => none
  | c :: rest =>
    if isDigitChar c then
      match takeDigits1 rest with
      | some (n, r) => some (n + 1, r)
      | none => some (1, rest)
    else none

def isWheelCode (c1 c2 : Char) : Bool :=
  (c1 = '6' && c2 = '4') || (c1 = '6' && c2 = '5') ||
    (c1 = '9' && c2 = '6') || (c1 = '9' && c2 = '7')

/-- Matcher for one occurrence of `\x1b\[<(64|65|96|97);(\d+);(\d+)[mM]`
at the head of the list, as in `consumeMouseScroll`.  Returns the two
captured button-code characters and the total length of the match.  The
alternation is deterministic: each alternative is two fixed characters at
the same position, and the following `;` is not a digit. -/
def matchWheel : List Char → Option ((Char × Char) × Nat)
  | '\x1b' :: '[' :: '<' :: c1 :: c2 :: ';' :: rest =>
    if isWheelCode c1 c2 then
      match takeDigits1 rest with
      | some (n1, ';' :: r2) =>
        match takeDigits1 r2 with
        | some (n2, c :: _) =>
          if c = 'm' || c = 'M' then some ((c1, c2), 6 + n1 + 1 + n2 + 1) else none
        | _ => none
      | _ => none
    else none
  | _ => none

/-- The `while (match) { delta += ...; lastIndex = ... }` loop of
`consumeMouseScroll`: left-to-right scan over the buffer summing ±1 per
complete wheel sequence; the second component is the tail after the last
match (`buffer.slice(lastIndex)`), `none` when there was no match.  Fuel is
the buffer length; each recursive call consumes at least one character. -/
def wheelScanAux : Nat → List Char → Int × Option (List Char)
  | 0, _ => (0, none)
  | _ + 1, [] => (0, none)
  | fuel + 1, c :: rest =>
    match matchWheel (c :: rest) with
    | some (code, n) =>
      let after := rest.drop (n - 1)
      let p := wheelScanAux fuel after
      ((if (code.1 = '6' && code.2 = '4') || (code.1 = '9' && code.2 = '6') then 1 else -1)
          + p.1,
        some (p.2.getD after))
    | none => wheelScanAux fuel rest

structure ScrollParseResult where
  remaining : List Char
  delta : Int
deriving DecidableEq

def startsWithIntro : List Char → Bool
  | '\x1b' :: '[' :: '<' :: _ => true
  | _ => false

/-- `remaining.lastIndexOf("\x1b[<")`. -/
def lastIntroducerIdx : List Char → Option Nat
  | [] => none
  | c :: rest =>
    match lastIntroducerIdx rest with
    | some k => some (k + 1)
    | none => if startsWithIntro (c :: rest) then some 0 else none

/-- `consumeMouseScroll` from `src/polymarket-demo.ts` (identical copy in
`src/ink-input-test.tsx`). -/
def consumeMouseScroll (buffer : List Char) : ScrollParseResult :=
  let p := wheelScanAux buffer.length buffer
  let remaining := p.2.getD buffer
  let remaining :=
    match lastIntroducerIdx remaining with
    | some k => if 0 < k then remaining.drop k else remaining
    | none => remaining
  ⟨remaining, p.1⟩

/-- The caller loop of `onData`: `buffer += chunk;
const scroll = consumeMouseScroll(buffer); buffer = scroll.remaining;`
folded over a chunk sequence starting from the empty retained buffer. -/
def mouseBufferRun (chunks : List (List Char)) : List Char :=
  chunks.foldl (fun buf c => (consumeMouseScroll (buf ++ c)).remaining) []

/-- Claim C2 exhibit: after two chunks of plain letters (13 characters in
total, no mouse data at all) the retained buffer holds all 13 characters,
exceeding the claimed ~12-character bound; the same happens when the buffer
begins with the introducer `ESC [ <` followed by letters, because the code
only truncates at an introducer found at a positive index and never discards
a buffer without complete matches. -/
theorem consumeMouseScroll_unbounded_retention :
    mouseBufferRun ["aaaaaaa".toList, "aaaaaa".toList] = "aaaaaaaaaaaaa".toList ∧
    12 < (mouseBufferRun ["aaaaaaa".toList, "aaaaaa".toList]).length ∧
    mouseBufferRun [['\x1b', '[', '<'], "aaaaaaaaaa".toList] =
      '\x1b' :: '[' :: '<' :: "aaaaaaaaaa".toList ∧
    12 < (mouseBufferRun [['\x1b', '[', '<'], "aaaaaaaaaa".toList]).length := by
  refine ⟨by decide, by decide, by decide, by decide⟩

/-- Specification-side view for claim C3: the numeric button codes of all
complete SGR wheel sequences in the buffer, in left-to-right scan order. -/
def wheelCodesAux : Nat → List Char → List Nat
  | 0, _ => []
  | _ + 1, [] => []
  | fuel + 1, c :: rest =>
    match matchWheel (c :: rest) with
    | some (code, n) =>
      ((code.1.toNat - 48) * 10 + (code.2.toNat - 48)) ::
        wheelCodesAux fuel (rest.drop (n - 1))
    | none => wheelCodesAux fuel rest

def wheelCodes (buffer : List Char) : List Nat := wheelCodesAux buffer.length buffer

def wheelContribution (code : Nat) : Int :=
  if code = 64 ∨ code = 96 then 1 else if code = 65 ∨ code = 97 then -1 else 0

lemma matchWheel_isWheelCode (l : List Char) (p : Char × Char) (n : Nat)
    (h : matchWheel l = some (p, n)) : isWheelCode p.1 p.2 = true := by
  unfold matchWheel at h
  split at h
  · split at h
    · next hcode =>
      split at h
      · split at h
        · split at h
          · injection h with h1
            injection h1 with h2 h3
            subst h2
            exact hcode
          · exact absurd h (by simp)
        · exact absurd h (by simp)
      · exact absurd h (by simp)
    · exact absurd h (by simp)
  · exact absurd h (by simp)

lemma wheelScanAux_delta (fuel : Nat) :
    ∀ l, (wheelScanAux fuel l).1 =
      ((wheelCodesAux fuel l).map wheelContribution).sum := by
  induction fuel with
  | zero => intro l; simp [wheelScanAux, wheelCodesAux]
  | succ n ih =>
    intro l
    cases l with
    | nil => simp [wheelScanAux, wheelCodesAux]
    | cons c rest =>
      simp only [wheelScanAux, wheelCodesAux]
      cases hm : matchWheel (c :: rest) with
      | none => simpa using ih rest
      | some pn =>
        obtain ⟨p, len⟩ := pn
        have hcode := matchWheel_isWheelCode _ _ _ hm
        simp only [List.map_cons, List.sum_cons]
        rw [ih]
        congr 1
        obtain ⟨c1, c2⟩ := p
        simp only [isWheelCode, Bool.or_eq_true, Bool.and_eq_true,
          decide_eq_true_eq] at hcode
        rcases hcode with ((⟨rfl, rfl⟩ | ⟨rfl, rfl⟩) | ⟨rfl, rfl⟩) | ⟨rfl, rfl⟩ <;> decide

def wheelDownSeq : List Char := "\x1b[<65;10;5M".toList

/-- Claim C3: the decoder's delta is the sum over all complete SGR wheel
sequences of +1 for codes 64/96 and −1 for codes 65/97; and feeding the
wheel-down sequence `ESC[<65;10;5M` split at any of its 12 byte boundaries
through two decoder calls (carrying `remaining` between them) yields total
delta −1, contributed in exactly one of the two calls. -/
theorem consumeMouseScroll_delta_correct :
    (∀ buffer : List Char,
      (consumeMouseScroll buffer).delta =
        ((wheelCodes buffer).map wheelContribution).sum) ∧
    (∀ i < 12,
      (consumeMouseScroll (wheelDownSeq.take i)).delta +
        (consumeMouseScroll
          ((consumeMouseScroll (wheelDownSeq.take i)).remaining ++
            wheelDownSeq.drop i)).delta = -1 ∧
      (((consumeMouseScroll (wheelDownSeq.take i)).delta = 0 ∧
        (consumeMouseScroll
          ((consumeMouseScroll (wheelDownSeq.take i)).remaining ++
            wheelDownSeq.drop i)).delta = -1) ∨
       ((consumeMouseScroll (wheelDownSeq.take i)).delta = -1 ∧
        (consumeMouseScroll
          ((consumeMouseScroll (wheelDownSeq.take i)).remaining ++
            wheelDownSeq.drop i)).delta = 0))) := by
  constructor
  · intro buffer
    show (wheelScanAux buffer.length buffer).1 = _
    exact wheelScanAux_delta buffer.length buffer
  · decide

/-- Witness for C3 at split point 3. -/
theorem consumeMouseScroll_delta_correct_witness :
    3 < 12 ∧
    ((consumeMouseScroll (wheelDownSeq.take 3)).delta +
       (consumeMouseScroll
         ((consumeMouseScroll (wheelDownSeq.take 3)).remaining ++
           wheelDownSeq.drop 3)).delta = -1 ∧
     (((consumeMouseScroll (wheelDownSeq.take 3)).delta = 0 ∧
       (consumeMouseScroll
         ((consumeMouseScroll (wheelDownSeq.take 3)).remaining ++
           wheelDownSeq.drop 3)).delta = -1) ∨
      ((consumeMouseScroll (wheelDownSeq.take 3)).delta = -1 ∧
       (consumeMouseScroll
         ((consumeMouseScroll (wheelDownSeq.take 3)).remaining ++
           wheelDownSeq.drop 3)).delta = 0))) :=
  ⟨by decide, consumeMouseScroll_delta_correct.2 3 (by decide)⟩

/-! ## Escape scrubber (`stripInputArtifacts`)

Each `String.replace(regex, "")` of the source becomes a left-to-right scan
(`stripMatches`) driven by a matcher for that regex at the head of the
list, mirroring the global-replace semantics of repeatedly removing the
leftmost match and resuming after it.  All the patterns are deterministic:
their character classes (digits, `;`, `?`, intermediate bytes, final bytes)
are pairwise disjoint at every juncture, so greedy matching never
backtracks observably; the OSC pattern is the one case with an interesting
greedy/backtracking analysis, spelled out at `matchOsc`. -/

/-- First pass of `cleaned.replace(/\r\n/g, "\n")`. -/
def replaceCrLf : List Char → List Char
  | [] => []
  | [c] => [c]
  | c :: c2 :: rest =>
    if c = '\r' ∧ c2 = '\n' then '\n' :: replaceCrLf rest
    else c :: replaceCrLf (c2 :: rest)

/-- Second pass `.replace(/\r/g, "\n")`. -/
def replaceCr : List Char → List Char :=
  List.map (fun c => if c = '\r' then '\n' else c)

/-- Parses `\d+;\d+;\d+[mM]`, the body shared by the SGR and bare mouse
patterns; returns the number of characters consumed. -/
def mouseBodyMM (l : List Char) : Option Nat :=
  match takeDigits1 l with
  | some (n1, ';' :: r1) =>
    match takeDigits1 r1 with
    | some (n2, ';' :: r2) =>
      match takeDigits1 r2 with
      | some (n3, c :: _) =>
        if c = 'm' || c = 'M' then some (n1 + 1 + n2 + 1 + n3 + 1) else none
      | _ => none
    | _ => none
  | _ => none

/-- Parses `\d+;\d+;\d+M` (urxvt form: capital `M` only). -/
def mouseBodyM (l : List Char) : Option Nat :=
  match takeDigits1 l with
  | some (n1, ';' :: r1) =>
    match takeDigits1 r1 with
    | some (n2, ';' :: r2) =>
      match takeDigits1 r2 with
      | some (n3, c :: _) => if c = 'M' then some (n1 + 1 + n2 + 1 + n3 + 1) else none
      | _ => none
    | _ => none
  | _ => none

/-- `\x1b\[<\d+;\d+;\d+[mM]` at the head. -/
def matchSgrMouse : List Char → Option Nat
  | c1 :: c2 :: c3 :: rest =>
    if c1 = '\x1b' ∧ c2 = '[' ∧ c3 = '<' then (mouseBodyMM rest).map (· + 3) else none
  | _ => none

/-- `\x1b\[\d+;\d+;\d+M` at the head. -/
def matchUrxvtMouse : List Char → Option Nat
  | c1 :: c2 :: rest =>
    if c1 = '\x1b' ∧ c2 = '[' then (mouseBodyM rest).map (· + 2) else none
  | _ => none

/-- `\[<?\d+;\d+;\d+[mM]` at the head (leftover forms, escape stripped).
The optional `<` is deterministic: when present it must be taken, and the
fallback of not taking it would require a digit at the `<`, which fails. -/
def matchBareMouse : List Char → Option Nat
  | c1 :: rest =>
    if c1 = '[' then
      match rest with
      | c2 :: rest2 =>
        if c2 = '<' then (mouseBodyMM rest2).map (· + 2)
        else (mouseBodyMM rest).map (· + 1)
      | [] => none
    else none
  | [] => none

/-- `\x1b\[M[\s\S]{3}` at the head. -/
def matchX10 : List Char → Option Nat
  | c1 :: c2 :: c3 :: _ :: _ :: _ :: _ =>
    if c1 = '\x1b' ∧ c2 = '[' ∧ c3 = 'M' then some 6 else none
  | _ => none

/-- `\[M[\s\S]{3}` at the head. -/
def matchBareX10 : List Char → Option Nat
  | c1 :: c2 :: _ :: _ :: _ :: _ =>
    if c1 = '[' ∧ c2 = 'M' then some 5 else none
  | _ => none

def isCsiParamByte (c : Char) : Bool := isDigitChar c || c = ';' || c = '?'

def isCsiIntermediateByte (c : Char) : Bool := 32 ≤ c.toNat && c.toNat ≤ 47

def isCsiFinalByte (c : Char) : Bool := 64 ≤ c.toNat && c.toNat ≤ 126

/-- Greedy star over a character class: count taken and the rest. -/
def takeWhileCount (p : Char → Bool) : List Char → Nat × List Char
  | [] => (0, [])
  | c :: rest =>
    if p c then
      let q := takeWhileCount p rest
      (q.1 + 1, q.2)
    else (0, c :: rest)

/-- The general CSI pattern at the head: `\x1b\[`, a greedy star of
parameter bytes `[0-9;?]`, a greedy star of intermediate bytes
(0x20 to 0x2f), then one final byte in 0x40 to 0x7e.  The three classes
are pairwise disjoint, so the greedy stars are deterministic. -/
def matchCsi : List Char → Option Nat
  | c1 :: c2 :: rest =>
    if c1 = '\x1b' ∧ c2 = '[' then
      let q1 := takeWhileCount isCsiParamByte rest
      let q2 := takeWhileCount isCsiIntermediateByte q1.2
      match q2.2 with
      | c :: _ => if isCsiFinalByte c then some (2 + q1.1 + q2.1 + 1) else none
      | [] => none
    else none
  | _ => none

def firstBelIdx : List Char → Option Nat
  | [] => none
  | c :: rest => if c.toNat = 7 then some 0 else (firstBelIdx rest).map (· + 1)

def startsWithSt : List Char → Bool
  | '\x1b' :: '\\' :: _ => true
  | _ => false

/-- Index of the last occurrence of `\x1b\\`. -/
def lastStIdx : List Char → Option Nat
  | [] => none
  | c :: rest =>
    match lastStIdx rest with
    | some k => some (k + 1)
    | none => if startsWithSt (c :: rest) then some 0 else none

/-- `\x1b\][^\x07]*(\x07|\x1b\\)` at the head (OSC).  The greedy
`[^\x07]*` runs to just before the first BEL, where the first alternative
of the terminator succeeds, so the match ends at that BEL; when no BEL
exists the engine backtracks to the last `\x1b\\` pair, so the match ends
after it; otherwise there is no match. -/
def matchOsc : List Char → Option Nat
  | c1 :: c2 :: rest =>
    if c1 = '\x1b' ∧ c2 = ']' then
      match firstBelIdx rest with
      | some i => some (2 + i + 1)
      | none =>
        match lastStIdx rest with
        | some k => some (2 + k + 2)
        | none => none
    else none
  | _ => none

/-- Characters removed by the final control-byte pass
`[\x00-\x08\x0b\x0c\x0e-\x1f\x7f]` (tab, newline and carriage return are
not in the class; carriage returns were already normalized away). -/
def isStrippedCtl (c : Char) : Bool :=
  c.toNat ≤ 8 || c.toNat = 11 || c.toNat = 12 ||
    (14 ≤ c.toNat && c.toNat ≤ 31) || c.toNat = 127

/-- Global-replace-with-empty scan: repeatedly remove the leftmost match and
resume scanning right after it.  Fuel is the list length; every step
consumes at least one character.  A matcher result of `some 0` (which none
of the matchers used here produce) is treated as no match. -/
def stripMatchesAux (m : List Char → Option Nat) : Nat → List Char → List Char
  | _, [] => []
  | 0, l => l
  | fuel + 1, c :: rest =>
    match m (c :: rest) with
    | some (n + 1) => stripMatchesAux m fuel (rest.drop n)
    | _ => c :: stripMatchesAux m fuel rest

def stripMatches (m : List Char → Option Nat) (l : List Char) : List Char :=
  stripMatchesAux m l.length l

/-- Decides whether the matcher fires at any position of the list. -/
def existsMatch (m : List Char → Option Nat) : List Char → Bool
  | [] => false
  | c :: rest => (m (c :: rest)).isSome || existsMatch m rest

/-- `stripInputArtifacts` from `src/polymarket-demo.ts`: the chain of
replacements in source order. -/
def stripInputArtifacts (value : List Char) : List Char :=
  let cleaned := replaceCr (replaceCrLf value)
  let cleaned := stripMatches matchSgrMouse cleaned
  let cleaned := stripMatches matchUrxvtMouse cleaned
  let cleaned := stripMatches matchBareMouse cleaned
  let cleaned := stripMatches matchX10 cleaned
  let cleaned := stripMatches matchBareX10 cleaned
  let cleaned := stripMatches matchCsi cleaned
  let cleaned := stripMatches matchOsc cleaned
  let cleaned := cleaned.filter (fun c => c != '\x1b')
  let cleaned := cleaned.filter (fun c => !(isStrippedCtl c))
  cleaned

lemma stripMatchesAux_id (m : List Char → Option Nat) :
    ∀ (fuel : Nat) (l : List Char), existsMatch m l = false →
      stripMatchesAux m fuel l = l := by
  intro fuel
  induction fuel with
  | zero => intro l _; cases l <;> rfl
  | succ n ih =>
    intro l h
    cases l with
    | nil => rfl
    | cons c rest =>
      simp only [existsMatch, Bool.or_eq_false_iff] at h
      obtain ⟨h1, h2⟩ := h
      have hm : m (c :: rest) = none := Option.not_isSome_iff_eq_none.mp (by simp [h1])
      simp only [stripMatchesAux, hm]
      rw [ih rest h2]

lemma stripMatches_id (m : List Char → Option Nat) (l : List Char)
    (h : existsMatch m l = false) : stripMatches m l = l :=
  stripMatchesAux_id m l.length l h

lemma existsMatch_eq_false_of_head (m : List Char → Option Nat)
    (hm : ∀ (c : Char) (t : List Char), c ≠ '\x1b' → m (c :: t) = none) :
    ∀ l : List Char, '\x1b' ∉ l → existsMatch m l = false := by
  intro l
  induction l with
  | nil => intro _; rfl
  | cons c rest ih =>
    intro h
    have hc : c ≠ '\x1b' := fun he => h (by simp [he])
    have hr : '\x1b' ∉ rest := fun he => h (List.mem_cons_of_mem _ he)
    simp [existsMatch, hm c rest hc, ih hr]

lemma stripMatchesAux_subset (m : List Char → Option Nat) :
    ∀ (fuel : Nat) (l : List Char) (c : Char),
      c ∈ stripMatchesAux m fuel l → c ∈ l := by
  intro fuel
  induction fuel with
  | zero => intro l c h; cases l <;> simpa [stripMatchesAux] using h
  | succ n ih =>
    intro l c h
    cases l with
    | nil => simpa [stripMatchesAux] using h
    | cons a rest =>
      simp only [stripMatchesAux] at h
      rcases hm : m (a :: rest) with _ | k
      · rw [hm] at h
        rcases List.mem_cons.mp h with h1 | h2
        · simp [h1]
        · exact List.mem_cons_of_mem _ (ih rest c h2)
      · cases k with
        | zero =>
          rw [hm] at h
          rcases List.mem_cons.mp h with h1 | h2
          · simp [h1]
          · exact List.mem_cons_of_mem _ (ih rest c h2)
        | succ j =>
          rw [hm] at h
          have := ih _ c h
          exact List.mem_cons_of_mem _ (List.drop_subset _ _ this)

lemma stripMatches_subset (m : List Char → Option Nat) (l : List Char) (c : Char)
    (h : c ∈ stripMatches m l) : c ∈ l :=
  stripMatchesAux_subset m l.length l c h

lemma replaceCrLf_id : ∀ l : List Char, '\r' ∉ l → replaceCrLf l = l := by
  intro l
  induction l with
  | nil => intro _; rfl
  | cons c rest ih =>
    intro h
    have hc : c ≠ '\r' := fun he => h (by simp [he])
    have hr : '\r' ∉ rest := fun he => h (List.mem_cons_of_mem _ he)
    cases rest with
    | nil => rfl
    | cons c2 rest2 =>
      have : ¬ (c = '\r' ∧ c2 = '\n') := fun hand => hc hand.1
      simp only [replaceCrLf, if_neg this]
      rw [ih hr]

lemma replaceCr_id (l : List Char) (h : '\r' ∉ l) : replaceCr l = l := by
  induction l with
  | nil => rfl
  | cons c rest ih =>
    have hc : c ≠ '\r' := fun he => h (by simp [he])
    have hr : '\r' ∉ rest := fun he => h (List.mem_cons_of_mem _ he)
    simp only [replaceCr, List.map_cons, if_neg hc]
    have := ih hr
    simp only [replaceCr] at this
    rw [this]

lemma replaceCr_no_cr (l : List Char) : '\r' ∉ replaceCr l := by
  simp only [replaceCr, List.mem_map]
  rintro ⟨a, _, ha⟩
  by_cases hc : a = '\r'
  · rw [if_pos hc] at ha
    exact absurd ha (by decide)
  · rw [if_neg hc] at ha
    exact hc ha

lemma matchSgrMouse_head (c : Char) (l : List Char) (h : c ≠ '\x1b') :
    matchSgrMouse (c :: l) = none := by
  rcases l with _ | ⟨c2, _ | ⟨c3, l3⟩⟩ <;>
    simp [matchSgrMouse] <;> intro h1 <;> exact absurd h1 h

lemma matchUrxvtMouse_head (c : Char) (l : List Char) (h : c ≠ '\x1b') :
    matchUrxvtMouse (c :: l) = none := by
  rcases l with _ | ⟨c2, l2⟩ <;>
    simp [matchUrxvtMouse] <;> intro h1 <;> exact absurd h1 h

lemma matchX10_head (c : Char) (l : List Char) (h : c ≠ '\x1b') :
    matchX10 (c :: l) = none := by
  rcases l with _ | ⟨c2, _ | ⟨c3, _ | ⟨c4, _ | ⟨c5, _ | ⟨c6, l6⟩⟩⟩⟩⟩ <;>
    simp [matchX10] <;> intro h1 <;> exact absurd h1 h

lemma matchCsi_head (c : Char) (l : List Char) (h : c ≠ '\x1b') :
    matchCsi (c :: l) = none := by
  rcases l with _ | ⟨c2, l2⟩ <;>
    simp [matchCsi] <;> intro h1 <;> exact absurd h1 h

lemma matchOsc_head (c : Char) (l : List Char) (h : c ≠ '\x1b') :
    matchOsc (c :: l) = none := by
  rcases l with _ | ⟨c2, l2⟩ <;>
    simp [matchOsc] <;> intro h1 <;> exact absurd h1 h

/-- Core identity lemma: on input free of carriage returns, escapes,
stripped control bytes and leftover bare mouse forms, every pass of the
scrubber is the identity. -/
lemma stripInputArtifacts_id_core (s : List Char)
    (hcr : '\r' ∉ s) (hesc : '\x1b' ∉ s)
    (hctl : ∀ c ∈ s, isStrippedCtl c = false)
    (hbm : existsMatch matchBareMouse s = false)
    (hbx : existsMatch matchBareX10 s = false) :
    stripInputArtifacts s = s := by
  have h8 : List.filter (fun c => c != '\x1b') s = s :=
    List.filter_eq_self.mpr (fun c hc => by
      simp only [bne_iff_ne, ne_eq]
      intro he
      rw [he] at hc
      exact hesc hc)
  have h9 : List.filter (fun c => !(isStrippedCtl c)) s = s :=
    List.filter_eq_self.mpr (fun c hc => by simp [hctl c hc])
  simp only [stripInputArtifacts]
  rw [replaceCrLf_id s hcr, replaceCr_id s hcr,
    stripMatches_id _ _ (existsMatch_eq_false_of_head _ matchSgrMouse_head s hesc),
    stripMatches_id _ _ (existsMatch_eq_false_of_head _ matchUrxvtMouse_head s hesc),
    stripMatches_id _ _ hbm,
    stripMatches_id _ _ (existsMatch_eq_false_of_head _ matchX10_head s hesc),
    stripMatches_id _ _ hbx,
    stripMatches_id _ _ (existsMatch_eq_false_of_head _ matchCsi_head s hesc),
    stripMatches_id _ _ (existsMatch_eq_false_of_head _ matchOsc_head s hesc),
    h8, h9]

lemma scrub_no_ctl (x : List Char) :
    ∀ c ∈ stripInputArtifacts x, isStrippedCtl c = false := by
  intro c hc
  simp only [stripInputArtifacts] at hc
  have h := (List.mem_filter.mp hc).2
  simpa using h

lemma scrub_no_esc (x : List Char) : '\x1b' ∉ stripInputArtifacts x := by
  intro h
  have := scrub_no_ctl x '\x1b' h
  exact absurd this (by decide)

lemma scrub_no_cr (x : List Char) : '\r' ∉ stripInputArtifacts x := by
  intro h
  simp only [stripInputArtifacts] at h
  have h1 := (List.mem_filter.mp h).1
  have h2 := (List.mem_filter.mp h1).1
  have h3 := stripMatches_subset _ _ _ h2
  have h4 := stripMatches_subset _ _ _ h3
  have h5 := stripMatches_subset _ _ _ h4
  have h6 := stripMatches_subset _ _ _ h5
  have h7 := stripMatches_subset _ _ _ h6
  have h8 := stripMatches_subset _ _ _ h7
  have h9 := stripMatches_subset _ _ _ h8
  exact replaceCr_no_cr _ h9

/-- Counterexample to claim C1 as stated: scrubbing is not idempotent.  On
`"[1;2;3[4;5;6MM"` the first scrub removes the complete bare mouse form
`[4;5;6M`, and the removal glues the remains into the new bare mouse form
`[1;2;3M`, which only a second scrub removes. -/
theorem stripInputArtifacts_idem_cex :
    stripInputArtifacts ("[1;2;3[4;5;6MM".toList) = ("[1;2;3M".toList) ∧
    stripInputArtifacts (stripInputArtifacts ("[1;2;3[4;5;6MM".toList)) = [] ∧
    stripInputArtifacts (stripInputArtifacts ("[1;2;3[4;5;6MM".toList)) ≠
      stripInputArtifacts ("[1;2;3[4;5;6MM".toList) := by
  refine ⟨by decide, by decide, by decide⟩

/-- Claim C1 as amended: scrubbing is idempotent at every input whose first
scrub leaves no leftover bare (escape-stripped) mouse form — the only
patterns that can match text newly glued together by a removal, since the
scrubbed output contains no carriage return, no escape byte and no
stripped control byte, making every other pass the identity. -/
theorem stripInputArtifacts_idempotent (x : List Char)
    (hbm : existsMatch matchBareMouse (stripInputArtifacts x) = false)
    (hbx : existsMatch matchBareX10 (stripInputArtifacts x) = false) :
    stripInputArtifacts (stripInputArtifacts x) = stripInputArtifacts x :=
  stripInputArtifacts_id_core _ (scrub_no_cr x) (scrub_no_esc x) (scrub_no_ctl x) hbm hbx

/-- Witness for C1 at a concrete input containing a color CSI sequence. -/
theorem stripInputArtifacts_idempotent_witness :
    existsMatch matchBareMouse (stripInputArtifacts ("\x1b[31mhi".toList)) = false ∧
    existsMatch matchBareX10 (stripInputArtifacts ("\x1b[31mhi".toList)) = false ∧
    stripInputArtifacts (stripInputArtifacts ("\x1b[31mhi".toList)) =
      stripInputArtifacts ("\x1b[31mhi".toList) :=
  ⟨by decide, by decide,
    stripInputArtifacts_idempotent ("\x1b[31mhi".toList) (by decide) (by decide)⟩

/-- Holds of characters that are not C0 control bytes (so in particular not
ESC and not CR) and not DEL. -/
def isPlainChar (c : Char) : Bool := 32 ≤ c.toNat && c.toNat ≠ 127

/-- Counterexample to claim C8 as stated: `"[1;2;3M"` contains no control
sequence at all — every character is a plain printable — yet scrubbing
deletes it entirely via the leftover bare-mouse-form rule; likewise a DEL
byte is not a C0 control byte but is still stripped. -/
theorem stripInputArtifacts_identity_cex :
    (("[1;2;3M".toList).all isPlainChar = true ∧
      stripInputArtifacts ("[1;2;3M".toList) = [] ∧
      stripInputArtifacts ("[1;2;3M".toList) ≠ "[1;2;3M".toList) ∧
    (stripInputArtifacts ['\x7f'] = [] ∧ stripInputArtifacts ['\x7f'] ≠ ['\x7f']) := by
  refine ⟨⟨by decide, by decide, by decide⟩, by decide, by decide⟩

/-- Claim C8 as amended: scrubbing is the identity on every string with no
C0 control byte other than tab and newline (hence no CR and no ESC), no
DEL byte, and — the amendment — no substring matching the leftover bare
mouse forms `[<?digits;digits;digits[mM]` or `[M` plus three bytes. -/
theorem stripInputArtifacts_identity (s : List Char)
    (hC0 : ∀ c ∈ s, c.toNat < 32 → c = '\t' ∨ c = '\n')
    (hdel : ∀ c ∈ s, c.toNat ≠ 127)
    (hbm : existsMatch matchBareMouse s = false)
    (hbx : existsMatch matchBareX10 s = false) :
    stripInputArtifacts s = s := by
  apply stripInputArtifacts_id_core s ?_ ?_ ?_ hbm hbx
  · intro h
    rcases hC0 _ h (by decide) with h1 | h1 <;> exact absurd h1 (by decide)
  · intro h
    rcases hC0 _ h (by decide) with h1 | h1 <;> exact absurd h1 (by decide)
  · intro c hc
    by_cases h32 : c.toNat < 32
    · rcases hC0 c hc h32 with rfl | rfl <;> decide
    · have hd := hdel c hc
      simp only [isStrippedCtl]
      simp only [Bool.or_eq_false_iff]
      refine ⟨⟨⟨⟨?_, ?_⟩, ?_⟩, ?_⟩, ?_⟩ <;> simp <;> omega

/-- Witness for C8 at a concrete plain string. -/
theorem stripInputArtifacts_identity_witness :
    existsMatch matchBareMouse ("hello world".toList) = false ∧
    existsMatch matchBareX10 ("hello world".toList) = false ∧
    stripInputArtifacts ("hello world".toList) = "hello world".toList :=
  ⟨by decide, by decide,
    stripInputArtifacts_identity ("hello world".toList)
      (by decide) (by decide) (by decide) (by decide)⟩

/-! ## Incremental tag extraction (`extractTagFromBuffer`) -/

structure StreamTagState where
  opened : Bool
  done : Bool
  text : List Char
deriving DecidableEq

/-- `indexOf` of a pattern in a list: index of the leftmost occurrence. -/
def firstIdx (pat : List Char) : List Char → Option Nat
  | [] => if pat.isEmpty then some 0 else none
  | c :: rest =>
    if pat.isPrefixOf (c :: rest) then some 0
    else (firstIdx pat rest).map (· + 1)

def openTagOf (tag : List Char) : List Char := '<' :: (tag ++ ['>'])

def closeTagOf (tag : List Char) : List Char := '<' :: '/' :: (tag ++ ['>'])

/-- The close-marker half of `extractTagFromBuffer` (the code after the
open-marker block, which runs identically whether the tag was already open
or was just opened): if the close marker is found, flush the text before
it, consume through it and finish; otherwise flush all but a
close-marker-length suffix, which stays buffered. -/
def closePhase (buf1 : List Char) (tag : List Char) (text : List Char) :
    List Char × StreamTagState :=
  match firstIdx (closeTagOf tag) buf1 with
  | some closeIdx =>
    (buf1.drop (closeIdx + (closeTagOf tag).length),
      { opened := true, done := true, text := text ++ buf1.take closeIdx })
  | none =>
    if (closeTagOf tag).length < buf1.length then
      (buf1.drop (buf1.length - (closeTagOf tag).length),
        { opened := true, done := false,
          text := text ++ buf1.take (buf1.length - (closeTagOf tag).length) })
    else (buf1, { opened := true, done := false, text := text })

/-- `extractTagFromBuffer` from `src/polymarket-demo.ts`.  The shared buffer
is passed and returned explicitly (`buffer.value` in the source).  In the
`done` state the call is a no-op.  Otherwise: while unopened, search for the
open marker, returning unchanged when absent, else consume through it; then
run the close-marker phase. -/
def extractTagFromBuffer (buffer : List Char) (tag : List Char)
    (state : StreamTagState) : List Char × StreamTagState :=
  if state.done then (buffer, state)
  else
    let afterOpen : Option (List Char) :=
      if state.opened then some buffer
      else
        match firstIdx (openTagOf tag) buffer with
        | none => none
        | some openIdx => some (buffer.drop (openIdx + (openTagOf tag).length))
    match afterOpen with
    | none => (buffer, state)
    | some buf1 => closePhase buf1 tag state.text

/-- One step of the streaming loop: append the arriving chunk to the shared
buffer, then push the tracker. -/
def pushChunk (tag : List Char) (acc : List Char × StreamTagState)
    (chunk : List Char) : List Char × StreamTagState :=
  extractTagFromBuffer (acc.1 ++ chunk) tag acc.2

/-- Feeding a whole chunk sequence to a single tracker starting from the
fresh state and the empty buffer. -/
def runTagStream (tag : List Char) (chunks : List (List Char)) :
    List Char × StreamTagState :=
  chunks.foldl (pushChunk tag) ([], ⟨false, false, []⟩)

/-- The two-tracker usage of the source (`onStreamChunk`): per chunk the
shared buffer grows, then each tracker is pushed in order against it. -/
def runTwoTagStreams (tagA tagB : List Char) (chunks : List (List Char)) :
    List Char × StreamTagState × StreamTagState :=
  chunks.foldl
    (fun acc chunk =>
      let r1 := extractTagFromBuffer (acc.1 ++ chunk) tagA acc.2.1
      let r2 := extractTagFromBuffer r1.1 tagB acc.2.2
      (r2.1, r1.2, r2.2))
    ([], ⟨false, false, []⟩, ⟨false, false, []⟩)

/-- Claim C5: once `done` is set a push changes neither the buffer nor the
state, and while `opened && !done` a push only ever extends the accumulated
text (the old text is a prefix of the new text). -/
theorem extractTag_state_invariant :
    (∀ (buffer tag : List Char) (st : StreamTagState),
      st.done = true → extractTagFromBuffer buffer tag st = (buffer, st)) ∧
    (∀ (buffer tag : List Char) (st : StreamTagState),
      st.opened = true → st.done = false →
        st.text <+: (extractTagFromBuffer buffer tag st).2.text) := by
  constructor
  · intro buffer tag st h
    simp [extractTagFromBuffer, h]
  · intro buffer tag st hop hdone
    simp only [extractTagFromBuffer, hdone, Bool.false_eq_true, if_false, hop, if_true,
      closePhase]
    split
    · exact List.prefix_append _ _
    · split
      · exact List.prefix_append _ _
      · exact List.prefix_rfl

/-- Witness for C5 at concrete states. -/
theorem extractTag_state_invariant_witness :
    (extractTagFromBuffer ("xy".toList) ("t".toList) ⟨true, true, "abc".toList⟩ =
      ("xy".toList, ⟨true, true, "abc".toList⟩) ∧
      (⟨true, true, "abc".toList⟩ : StreamTagState).done = true) ∧
    ((⟨true, false, "ab".toList⟩ : StreamTagState).text <+:
      (extractTagFromBuffer ("cdefghij".toList) ("t".toList)
        ⟨true, false, "ab".toList⟩).2.text) :=
  ⟨⟨extractTag_state_invariant.1 ("xy".toList) ("t".toList)
      ⟨true, true, "abc".toList⟩ rfl, rfl⟩,
    extractTag_state_invariant.2 ("cdefghij".toList) ("t".toList)
      ⟨true, false, "ab".toList⟩ rfl rfl⟩

/-- The pattern occurs in `l` at position `p` (with the full pattern inside
`l`). -/
def occursAt (pat l : List Char) (p : Nat) : Prop := pat <+: l.drop p

lemma occursAt_zero_iff (pat l : List Char) : occursAt pat l 0 ↔ pat <+: l := by
  simp [occursAt]

lemma occursAt_cons_succ (pat : List Char) (c : Char) (l : List Char) (q : Nat) :
    occursAt pat (c :: l) (q + 1) ↔ occursAt pat l q := Iff.rfl

lemma firstIdx_none_no_occ (pat : List Char) (hpat : pat ≠ []) :
    ∀ l, firstIdx pat l = none → ∀ q, ¬ occursAt pat l q := by
  intro l
  induction l with
  | nil =>
    intro _ q hocc
    have : pat <+: [] := by simpa [occursAt] using hocc
    exact hpat (List.prefix_nil.mp this)
  | cons c rest ih =>
    intro h q hocc
    simp only [firstIdx] at h
    split at h
    · exact absurd h (by simp)
    · next hpre =>
      cases q with
      | zero =>
        rw [occursAt_zero_iff] at hocc
        exact hpre (List.isPrefixOf_iff_prefix.mpr hocc)
      | succ q0 =>
        have hrest : firstIdx pat rest = none := by
          rcases hr : firstIdx pat rest with _ | k
          · rfl
          · rw [hr] at h; exact absurd h (by simp)
        exact ih hrest q0 ((occursAt_cons_succ pat c rest q0).mp hocc)

lemma firstIdx_some_occ (pat : List Char) :
    ∀ l k, firstIdx pat l = some k →
      occursAt pat l k ∧ ∀ j < k, ¬ occursAt pat l j := by
  intro l
  induction l with
  | nil =>
    intro k h
    simp only [firstIdx] at h
    split at h
    · next hemp =>
      have h0 : k = 0 := by
        have := h
        injection this with h1
        omega
      subst h0
      refine ⟨?_, fun j hj => absurd hj (by omega)⟩
      rw [occursAt_zero_iff, List.isEmpty_iff.mp hemp]
    · exact absurd h (by simp)
  | cons c rest ih =>
    intro k h
    simp only [firstIdx] at h
    split at h
    · next hpre =>
      injection h with h0
      subst h0
      exact ⟨(occursAt_zero_iff pat _).mpr (List.isPrefixOf_iff_prefix.mp hpre), by omega⟩
    · next hpre =>
      rcases hr : firstIdx pat rest with _ | k0
      · rw [hr] at h; exact absurd h (by simp)
      · rw [hr] at h
        have h0 : k0 + 1 = k := by simpa using h
        subst h0
        obtain ⟨hocc, hmin⟩ := ih k0 hr
        refine ⟨(occursAt_cons_succ pat c rest k0).mpr hocc, ?_⟩
        intro j hj hjocc
        cases j with
        | zero =>
          rw [occursAt_zero_iff] at hjocc
          exact hpre (List.isPrefixOf_iff_prefix.mpr hjocc)
        | succ j0 =>
          exact hmin j0 (by omega) ((occursAt_cons_succ pat c rest j0).mp hjocc)

lemma firstIdx_eq_some_of (pat : List Char) :
    ∀ l k, occursAt pat l k → (∀ j < k, ¬ occursAt pat l j) →
      firstIdx pat l = some k := by
  intro l
  induction l with
  | nil =>
    intro k hocc hmin
    have hpat : pat = [] := by
      have : pat <+: [] := by simpa [occursAt] using hocc
      exact List.prefix_nil.mp this
    have hk : k = 0 := by
      by_contra hne
      exact hmin 0 (by omega) (by simp [occursAt, hpat])
    subst hk
    simp [firstIdx, hpat]
  | cons c rest ih =>
    intro k hocc hmin
    by_cases hpre : pat <+: (c :: rest)
    · have hk : k = 0 := by
        by_contra hne
        exact hmin 0 (by omega) ((occursAt_zero_iff pat _).mpr hpre)
      subst hk
      simp [firstIdx, List.isPrefixOf_iff_prefix.mpr hpre]
    · have hk : k ≠ 0 := by
        intro h0
        subst h0
        exact hpre ((occursAt_zero_iff pat _).mp hocc)
      obtain ⟨k0, rfl⟩ : ∃ k0, k = k0 + 1 := ⟨k - 1, by omega⟩
      have hocc0 := (occursAt_cons_succ pat c rest k0).mp hocc
      have hmin0 : ∀ j < k0, ¬ occursAt pat rest j := fun j hj hje =>
        hmin (j + 1) (by omega) ((occursAt_cons_succ pat c rest j).mpr hje)
      have hfi := ih k0 hocc0 hmin0
      have hnp : pat.isPrefixOf (c :: rest) = false := by
        cases hb : pat.isPrefixOf (c :: rest)
        · rfl
        · exact absurd (List.isPrefixOf_iff_prefix.mp hb) hpre
      simp [firstIdx, hnp, hfi]

lemma occursAt_mono (pat l L : List Char) (q : Nat)
    (h : occursAt pat l q) (hl : l <+: L) : occursAt pat L q :=
  h.trans (hl.drop q)

lemma occursAt_restrict (pat l L : List Char) (q : Nat) (h : occursAt pat L q)
    (hl : l <+: L) (hq : q + pat.length ≤ l.length) : occursAt pat l q := by
  have hl2 : l = L.take l.length := List.prefix_iff_eq_take.mp hl
  rw [occursAt, hl2, List.drop_take, List.prefix_take_iff]
  exact ⟨h, by omega⟩

lemma occursAt_length_le (pat l : List Char) (q : Nat) (hpat : pat ≠ [])
    (h : occursAt pat l q) : q + pat.length ≤ l.length := by
  rcases Nat.lt_or_ge q l.length with hq | hq
  · have := h.length_le
    simp only [List.length_drop] at this
    omega
  · have hnil : l.drop q = [] := List.drop_eq_nil_of_le hq
    rw [occursAt, hnil] at h
    exact absurd (List.prefix_nil.mp h) hpat

/-- The part of the stream up to and including the open marker. -/
def streamY (tag pre : List Char) : List Char := pre ++ openTagOf tag

/-- The part of the stream after the open marker. -/
def streamX (tag content post : List Char) : List Char :=
  content ++ closeTagOf tag ++ post

/-- The whole stream `pre ++ <tag> ++ content ++ </tag> ++ post`. -/
def streamS (tag pre content post : List Char) : List Char :=
  streamY tag pre ++ streamX tag content post

lemma openTagOf_ne_nil (tag : List Char) : openTagOf tag ≠ [] := by
  simp [openTagOf]

lemma closeTagOf_ne_nil (tag : List Char) : closeTagOf tag ≠ [] := by
  simp [closeTagOf]

section TagStreamProof

variable (tag pre content post : List Char)

/-- No occurrence of the close marker can start strictly inside the content
region of a window of the stream suffix `streamX`. -/
lemma no_early_close
    (hclose : ∀ p, occursAt (closeTagOf tag) (content ++ closeTagOf tag) p →
      p = content.length)
    (m f q : Nat)
    (hocc : occursAt (closeTagOf tag)
      (((streamX tag content post).take m).drop f) q)
    (hlt : f + q < content.length) : False := by
  set X := streamX tag content post with hX
  have h1 : occursAt (closeTagOf tag) (X.take m) (f + q) := by
    rw [occursAt, ← List.drop_drop]
    exact hocc
  have h2 : occursAt (closeTagOf tag) X (f + q) :=
    occursAt_mono _ _ _ _ h1 ⟨X.drop m, List.take_append_drop m X⟩
  have h3 : occursAt (closeTagOf tag) (content ++ closeTagOf tag) (f + q) := by
    apply occursAt_restrict _ _ _ _ h2
    · exact ⟨post, by simp [hX, streamX, List.append_assoc]⟩
    · simp only [List.length_append]
      omega
  have := hclose _ h3
  omega

/-- When the window is long enough to hold the whole content and close
marker, the close-marker search finds exactly the end of the content. -/
lemma closeSearch_found
    (hclose : ∀ p, occursAt (closeTagOf tag) (content ++ closeTagOf tag) p →
      p = content.length)
    (m f : Nat) (hm : content.length + (closeTagOf tag).length ≤ m)
    (hmX : m ≤ (streamX tag content post).length)
    (hf : f ≤ content.length) :
    firstIdx (closeTagOf tag) (((streamX tag content post).take m).drop f) =
      some (content.length - f) := by
  set X := streamX tag content post with hX
  apply firstIdx_eq_some_of
  · rw [occursAt, List.drop_drop]
    have hsum : f + (content.length - f) = content.length := by omega
    rw [hsum, List.drop_take]
    have hdX : X.drop content.length = closeTagOf tag ++ post := by
      rw [hX, streamX, List.append_assoc]
      exact List.drop_left content _
    rw [hdX, List.prefix_take_iff]
    exact ⟨List.prefix_append _ _, by omega⟩
  · intro j hj hocc
    exact no_early_close tag content post hclose m f j hocc (by omega)

/-- When the window is too short to hold content plus close marker, the
close-marker search fails. -/
lemma closeSearch_none
    (hclose : ∀ p, occursAt (closeTagOf tag) (content ++ closeTagOf tag) p →
      p = content.length)
    (m f : Nat) (hm : m < content.length + (closeTagOf tag).length) :
    firstIdx (closeTagOf tag) (((streamX tag content post).take m).drop f) =
      none := by
  set X := streamX tag content post with hX
  rcases hfi : firstIdx (closeTagOf tag) ((X.take m).drop f) with _ | k
  · rfl
  · exfalso
    have hocc := (firstIdx_some_occ _ _ _ hfi).1
    have hlen := occursAt_length_le _ _ _ (closeTagOf_ne_nil tag) hocc
    rw [List.length_drop, List.length_take] at hlen
    have hminle : min m X.length ≤ m := Nat.min_le_left m X.length
    have hcl : 0 < (closeTagOf tag).length := by simp [closeTagOf]
    apply no_early_close tag content post hclose m f k hocc
    omega

/-- While the processed prefix is shorter than `pre ++ <tag>`, the open
marker is not found. -/
lemma openSearch_none
    (hopen : ∀ p, occursAt (openTagOf tag) (streamY tag pre) p → p = pre.length)
    (P : List Char) (hP : P <+: streamS tag pre content post)
    (hlt : P.length < (streamY tag pre).length) :
    firstIdx (openTagOf tag) P = none := by
  rcases hfi : firstIdx (openTagOf tag) P with _ | k
  · rfl
  · exfalso
    have hocc := (firstIdx_some_occ _ _ _ hfi).1
    have hlen := occursAt_length_le _ _ _ (openTagOf_ne_nil tag) hocc
    have hYP : P <+: streamY tag pre := by
      apply List.prefix_of_prefix_length_le hP _ (by omega)
      exact ⟨streamX tag content post, rfl⟩
    have hoccY := occursAt_mono _ _ _ _ hocc hYP
    have := hopen _ hoccY
    subst this
    have : (streamY tag pre).length = pre.length + (openTagOf tag).length := by
      simp [streamY]
    omega

/-- Once the processed prefix reaches the end of `pre ++ <tag>`, the open
marker is found exactly at the end of `pre`. -/
lemma openSearch_found
    (hopen : ∀ p, occursAt (openTagOf tag) (streamY tag pre) p → p = pre.length)
    (P : List Char) (hP : P <+: streamS tag pre content post)
    (hge : (streamY tag pre).length ≤ P.length) :
    firstIdx (openTagOf tag) P = some pre.length := by
  have hYlen : (streamY tag pre).length = pre.length + (openTagOf tag).length := by
    simp [streamY]
  apply firstIdx_eq_some_of
  · rw [occursAt]
    have hP2 : P = (streamS tag pre content post).take P.length :=
      List.prefix_iff_eq_take.mp hP
    rw [hP2, List.drop_take]
    have hdS : (streamS tag pre content post).drop pre.length =
        openTagOf tag ++ (streamX tag content post) := by
      rw [streamS, streamY, List.append_assoc]
      exact List.drop_left pre _
    rw [hdS, List.prefix_take_iff]
    exact ⟨List.prefix_append _ _, by omega⟩
  · intro j hj hocc
    have hYP : streamY tag pre <+: P :=
      List.prefix_of_prefix_length_le ⟨streamX tag content post, rfl⟩ hP hge
    have hoccY : occursAt (openTagOf tag) (streamY tag pre) j := by
      apply occursAt_restrict _ _ _ _ hocc hYP
      omega
    have := hopen _ hoccY
    omega

/-- Evaluation of the close phase when the window holds the whole content
and close marker: the tracker finishes with exactly the content. -/
lemma closePhase_complete
    (hclose : ∀ p, occursAt (closeTagOf tag) (content ++ closeTagOf tag) p →
      p = content.length)
    (m f : Nat) (hmX : m ≤ (streamX tag content post).length)
    (hm : content.length + (closeTagOf tag).length ≤ m)
    (hf : f ≤ content.length) :
    closePhase (((streamX tag content post).take m).drop f) tag
        ((streamX tag content post).take f) =
      (((streamX tag content post).take m).drop
          (content.length + (closeTagOf tag).length),
        ⟨true, true, content⟩) := by
  set X := streamX tag content post with hX
  unfold closePhase
  rw [closeSearch_found tag content post hclose m f hm hmX hf]
  have hbuf : ((X.take m).drop f).drop
      (content.length - f + (closeTagOf tag).length) =
      (X.take m).drop (content.length + (closeTagOf tag).length) := by
    rw [List.drop_drop]
    congr 1
    omega
  have htext : X.take f ++ ((X.take m).drop f).take (content.length - f) =
      content := by
    rw [List.drop_take]
    rw [List.take_take]
    have hmin : min (content.length - f) (m - f) = content.length - f := by omega
    rw [hmin]
    have : X.take f ++ (X.drop f).take (content.length - f) =
        X.take (f + (content.length - f)) := (List.take_add X f _).symm
    rw [this]
    have hsum : f + (content.length - f) = content.length := by omega
    rw [hsum, hX, streamX, List.append_assoc]
    exact List.take_left content _
  dsimp only
  rw [hbuf, htext]

/-- Evaluation of the close phase when the window is too short: the tracker
stays open and holds all of the window except a close-marker-length
suffix. -/
lemma closePhase_incomplete
    (hclose : ∀ p, occursAt (closeTagOf tag) (content ++ closeTagOf tag) p →
      p = content.length)
    (m m0 : Nat) (hmX : m ≤ (streamX tag content post).length)
    (hm : m < content.length + (closeTagOf tag).length)
    (hm0 : m0 ≤ m)
    (hm0b : m0 = 0 ∨ m0 < content.length + (closeTagOf tag).length) :
    closePhase
        (((streamX tag content post).take m).drop
          (m0 - min m0 (closeTagOf tag).length)) tag
        ((streamX tag content post).take (m0 - min m0 (closeTagOf tag).length)) =
      (((streamX tag content post).take m).drop
          (m - min m (closeTagOf tag).length),
        ⟨true, false,
          (streamX tag content post).take (m - min m (closeTagOf tag).length)⟩) := by
  set X := streamX tag content post with hX
  set cl := (closeTagOf tag).length with hcl
  set f := m0 - min m0 cl with hf
  have hf_le : f ≤ content.length := by
    rcases hm0b with h0 | h0 <;> omega
  have hf_le_m : f ≤ m := by omega
  unfold closePhase
  rw [closeSearch_none tag content post hclose m f hm]
  dsimp only
  have hlen : ((X.take m).drop f).length = m - f := by
    simp only [List.length_drop, List.length_take]
    omega
  by_cases htrim : cl < m - f
  · rw [if_pos (by rw [hlen]; exact htrim)]
    have hmin : m - min m cl = m - cl := by omega
    have hbuf : ((X.take m).drop f).drop (((X.take m).drop f).length - cl) =
        (X.take m).drop (m - min m cl) := by
      rw [hlen, List.drop_drop, hmin]
      congr 1
      omega
    have htext : X.take f ++ ((X.take m).drop f).take (((X.take m).drop f).length - cl) =
        X.take (m - min m cl) := by
      rw [hlen, List.drop_take, List.take_take]
      have hm2 : min (m - f - cl) (m - f) = m - f - cl := by omega
      rw [hm2]
      have : X.take f ++ (X.drop f).take (m - f - cl) =
          X.take (f + (m - f - cl)) := (List.take_add X f _).symm
      rw [this, hmin]
      congr 1
      omega
    rw [hbuf, htext]
  · rw [if_neg (by rw [hlen]; exact htrim)]
    have hfeq : f = m - min m cl := by
      rcases hm0b with h0 | h0 <;> omega
    rw [← hfeq]

/-- A processed prefix of the stream, dropped past the open marker, is a
window into the stream part after the open marker. -/
lemma prefix_drop_eq_take (P : List Char)
    (hP : P <+: streamS tag pre content post)
    (ho : (streamY tag pre).length ≤ P.length) :
    P.drop (streamY tag pre).length =
      (streamX tag content post).take (P.length - (streamY tag pre).length) := by
  have hP2 : P = (streamS tag pre content post).take P.length :=
    List.prefix_iff_eq_take.mp hP
  conv_lhs => rw [hP2]
  rw [List.drop_take]
  congr 1
  rw [streamS]
  exact List.drop_left _ _

end TagStreamProof

lemma extract_done_eval (buf tag : List Char) (st : StreamTagState)
    (h : st.done = true) : extractTagFromBuffer buf tag st = (buf, st) := by
  simp [extractTagFromBuffer, h]

lemma extract_opened_eval (buf tag text : List Char) :
    extractTagFromBuffer buf tag ⟨true, false, text⟩ = closePhase buf tag text := by
  simp [extractTagFromBuffer]

lemma extract_unopened_none_eval (buf tag : List Char)
    (hfi : firstIdx (openTagOf tag) buf = none) :
    extractTagFromBuffer buf tag ⟨false, false, []⟩ = (buf, ⟨false, false, []⟩) := by
  simp [extractTagFromBuffer, hfi]

lemma extract_unopened_found_eval (buf tag : List Char) (k : Nat)
    (hfi : firstIdx (openTagOf tag) buf = some k) :
    extractTagFromBuffer buf tag ⟨false, false, []⟩ =
      closePhase (buf.drop (k + (openTagOf tag).length)) tag [] := by
  simp [extractTagFromBuffer, hfi]

/-- Invariant of the single-tracker streaming loop, as a function of the
processed prefix `P` of the stream: before the open marker is complete the
tracker is untouched and the buffer holds everything; after it, the window
`X.take m` (with `X` the stream past the open marker and `m` the processed
part of it) is split into flushed text `X.take (m - min m cl)` and the
withheld buffer; once content and close marker are fully processed the
tracker is done holding exactly the content. -/
def tagInv (tag pre content post : List Char) (P : List Char)
    (bs : List Char × StreamTagState) : Prop :=
  let o := (streamY tag pre).length
  let cl := (closeTagOf tag).length
  let X := streamX tag content post
  let m := P.length - o
  (P.length < o → bs = (P, ⟨false, false, []⟩)) ∧
  (o ≤ P.length → P.length < o + content.length + cl →
    bs = ((X.take m).drop (m - min m cl), ⟨true, false, X.take (m - min m cl)⟩)) ∧
  (o + content.length + cl ≤ P.length →
    bs = ((X.take m).drop (content.length + cl), ⟨true, true, content⟩))

section TagStreamStep

variable (tag pre content post : List Char)

lemma tagInv_step
    (hopen : ∀ p, occursAt (openTagOf tag) (streamY tag pre) p → p = pre.length)
    (hclose : ∀ p, occursAt (closeTagOf tag) (content ++ closeTagOf tag) p →
      p = content.length)
    (P c : List Char) (bs : List Char × StreamTagState)
    (hPc : P ++ c <+: streamS tag pre content post)
    (hinv : tagInv tag pre content post P bs) :
    tagInv tag pre content post (P ++ c) (extractTagFromBuffer (bs.1 ++ c) tag bs.2) := by
  simp only [tagInv] at hinv ⊢
  obtain ⟨hA, hB, hC⟩ := hinv
  have hP : P <+: streamS tag pre content post := (List.prefix_append P c).trans hPc
  have hYlen : (streamY tag pre).length = pre.length + (openTagOf tag).length := by
    simp [streamY]
  have hcl_pos : 0 < (closeTagOf tag).length := by simp [closeTagOf]
  have hn' : (P ++ c).length = P.length + c.length := List.length_append P c
  have hSlen : (streamS tag pre content post).length =
      (streamY tag pre).length + (streamX tag content post).length := by
    simp [streamS]
  have hXlen : content.length + (closeTagOf tag).length ≤
      (streamX tag content post).length := by
    simp [streamX]
  have hn'_le : (P ++ c).length ≤ (streamS tag pre content post).length :=
    hPc.length_le
  by_cases h1 : (P ++ c).length < (streamY tag pre).length
  · -- open marker still incomplete: no-op on the fresh state
    have hn : P.length < (streamY tag pre).length := by omega
    have hbs := hA hn
    subst hbs
    dsimp only
    rw [extract_unopened_none_eval _ tag
      (openSearch_none tag pre content post hopen _ hPc h1)]
    exact ⟨fun _ => rfl, fun ha _ => absurd ha (by omega),
      fun ha => absurd ha (by omega)⟩
  · push_neg at h1
    have hmX : (P ++ c).length - (streamY tag pre).length ≤
        (streamX tag content post).length := by omega
    by_cases h2 : P.length < (streamY tag pre).length
    · -- the push that finds the open marker
      have hbs := hA h2
      subst hbs
      dsimp only
      have hfi := openSearch_found tag pre content post hopen _ hPc h1
      rw [extract_unopened_found_eval _ tag _ hfi]
      have hdrop : (P ++ c).drop (pre.length + (openTagOf tag).length) =
          (streamX tag content post).take
            ((P ++ c).length - (streamY tag pre).length) := by
        rw [← hYlen]
        exact prefix_drop_eq_take tag pre content post _ hPc h1
      rw [hdrop]
      by_cases hcut : content.length + (closeTagOf tag).length ≤
          (P ++ c).length - (streamY tag pre).length
      · have hclp := closePhase_complete tag content post hclose
          ((P ++ c).length - (streamY tag pre).length) 0 hmX hcut (by omega)
        simp only [List.drop_zero, List.take_zero] at hclp
        rw [hclp]
        exact ⟨fun ha => absurd ha (by omega), fun _ hb => absurd hb (by omega),
          fun _ => rfl⟩
      · push_neg at hcut
        have hclp := closePhase_incomplete tag content post hclose
          ((P ++ c).length - (streamY tag pre).length) 0 hmX hcut (by omega)
          (Or.inl rfl)
        have h00 : (0 : Nat) - min 0 (closeTagOf tag).length = 0 := by omega
        rw [h00] at hclp
        simp only [List.drop_zero, List.take_zero] at hclp
        rw [hclp]
        exact ⟨fun ha => absurd ha (by omega), fun _ _ => rfl,
          fun ha => absurd ha (by omega)⟩
    · push_neg at h2
      have hmP : P.length - (streamY tag pre).length ≤
          (streamX tag content post).length := by
        have := hP.length_le
        omega
      have e1 : (P ++ c).drop (streamY tag pre).length =
          (streamX tag content post).take
            ((P ++ c).length - (streamY tag pre).length) :=
        prefix_drop_eq_take tag pre content post _ hPc h1
      have e2 : (P ++ c).drop (streamY tag pre).length =
          P.drop (streamY tag pre).length ++ c :=
        List.drop_append_of_le_length h2
      have e3 : P.drop (streamY tag pre).length =
          (streamX tag content post).take (P.length - (streamY tag pre).length) :=
        prefix_drop_eq_take tag pre content post _ hP h2
      have e4 : (streamX tag content post).take (P.length - (streamY tag pre).length)
            ++ c =
          (streamX tag content post).take
            ((P ++ c).length - (streamY tag pre).length) := by
        rw [← e3, ← e2, e1]
      by_cases h3 : P.length <
          (streamY tag pre).length + content.length + (closeTagOf tag).length
      · -- accumulating phase
        have hbs := hB h2 h3
        subst hbs
        dsimp only
        rw [extract_opened_eval]
        have hfle : P.length - (streamY tag pre).length -
            min (P.length - (streamY tag pre).length) (closeTagOf tag).length ≤
            (List.take (P.length - (streamY tag pre).length)
              (streamX tag content post)).length := by
          simp only [List.length_take]
          omega
        have hbufeq : ((streamX tag content post).take
              (P.length - (streamY tag pre).length)).drop
                (P.length - (streamY tag pre).length -
                  min (P.length - (streamY tag pre).length)
                    (closeTagOf tag).length) ++ c =
            ((streamX tag content post).take
              ((P ++ c).length - (streamY tag pre).length)).drop
                (P.length - (streamY tag pre).length -
                  min (P.length - (streamY tag pre).length)
                    (closeTagOf tag).length) := by
          rw [← e4, List.drop_append_of_le_length hfle]
        rw [hbufeq]
        by_cases hcut : content.length + (closeTagOf tag).length ≤
            (P ++ c).length - (streamY tag pre).length
        · have hclp := closePhase_complete tag content post hclose
            ((P ++ c).length - (streamY tag pre).length)
            (P.length - (streamY tag pre).length -
              min (P.length - (streamY tag pre).length) (closeTagOf tag).length)
            hmX hcut (by omega)
          rw [hclp]
          exact ⟨fun ha => absurd ha (by omega), fun _ hb => absurd hb (by omega),
            fun _ => rfl⟩
        · push_neg at hcut
          have hclp := closePhase_incomplete tag content post hclose
            ((P ++ c).length - (streamY tag pre).length)
            (P.length - (streamY tag pre).length)
            hmX hcut (by omega) (Or.inr (by omega))
          rw [hclp]
          exact ⟨fun ha => absurd ha (by omega), fun _ _ => rfl,
            fun ha => absurd ha (by omega)⟩
      · -- done: the push is a no-op on the state
        push_neg at h3
        have hbs := hC h3
        subst hbs
        dsimp only
        rw [extract_done_eval _ _ _ rfl]
        have hfle2 : content.length + (closeTagOf tag).length ≤
            (List.take (P.length - (streamY tag pre).length)
              (streamX tag content post)).length := by
          simp only [List.length_take]
          omega
        have hbufeq : ((streamX tag content post).take
              (P.length - (streamY tag pre).length)).drop
                (content.length + (closeTagOf tag).length) ++ c =
            ((streamX tag content post).take
              ((P ++ c).length - (streamY tag pre).length)).drop
                (content.length + (closeTagOf tag).length) := by
          rw [← e4, List.drop_append_of_le_length hfle2]
        rw [hbufeq]
        exact ⟨fun ha => absurd ha (by omega), fun _ hb => absurd hb (by omega),
          fun _ => rfl⟩

lemma tagInv_foldl
    (hopen : ∀ p, occursAt (openTagOf tag) (streamY tag pre) p → p = pre.length)
    (hclose : ∀ p, occursAt (closeTagOf tag) (content ++ closeTagOf tag) p →
      p = content.length) :
    ∀ (cs : List (List Char)) (P : List Char) (bs : List Char × StreamTagState),
      (P ++ cs.flatten) <+: streamS tag pre content post →
      tagInv tag pre content post P bs →
      tagInv tag pre content post (P ++ cs.flatten) (cs.foldl (pushChunk tag) bs) := by
  intro cs
  induction cs with
  | nil =>
    intro P bs h hinv
    simpa using hinv
  | cons c cs ih =>
    intro P bs h hinv
    have hassoc : P ++ (c :: cs).flatten = (P ++ c) ++ cs.flatten := by
      simp [List.append_assoc]
    rw [hassoc] at h ⊢
    rw [List.foldl_cons]
    apply ih (P ++ c) _ h
    have hstep := tagInv_step tag pre content post hopen hclose P c bs
      ((List.prefix_append (P ++ c) cs.flatten).trans h) hinv
    simpa [pushChunk] using hstep

end TagStreamStep

/-- Transfers a bounded occurrence-uniqueness check (decidable for concrete
lists) to the unbounded form used by the stream theorem. -/
lemma occursAt_unique_of_bounded (pat l : List Char) (k : Nat) (hpat : pat ≠ [])
    (hb : ∀ p < l.length, occursAt pat l p → p = k) :
    ∀ p, occursAt pat l p → p = k := by
  intro p hp
  rcases Nat.lt_or_ge p l.length with h | h
  · exact hb p h hp
  · have := occursAt_length_le pat l p hpat hp
    have hlen : 0 < pat.length := List.length_pos.mpr hpat
    omega

instance (pat l : List Char) (p : Nat) : Decidable (occursAt pat l p) := by
  unfold occursAt
  infer_instance

/-- Claim C4: for every stream `pre ++ <tag> ++ content ++ </tag> ++ post`
whose open marker occurs only once in `pre ++ <tag>` and whose close marker
occurs only once in `content ++ </tag>`, and for every way of cutting the
stream into ordered chunks appended to the shared buffer with a push after
each append, the tracker finishes with accumulated text exactly `content`;
and the spec's concrete two-tracker run (tags `actions` then `text` pushed
against the same buffer) extracts `REPLY` and `AB`. -/
theorem extractTag_stream_exact :
    (∀ (tag pre content post : List Char) (chunks : List (List Char)),
      chunks.flatten = pre ++ openTagOf tag ++ content ++ closeTagOf tag ++ post →
      (∀ p, occursAt (openTagOf tag) (pre ++ openTagOf tag) p → p = pre.length) →
      (∀ p, occursAt (closeTagOf tag) (content ++ closeTagOf tag) p →
        p = content.length) →
      (runTagStream tag chunks).2.text = content ∧
        (runTagStream tag chunks).2.done = true) ∧
    (runTwoTagStreams ("actions".toList) ("text".toList)
        [("<actions>REP".toList), ("LY</actions><te".toList), ("xt>A".toList),
          ("B</te".toList), ("xt>".toList)]).2.1.text = "REPLY".toList ∧
    (runTwoTagStreams ("actions".toList) ("text".toList)
        [("<actions>REP".toList), ("LY</actions><te".toList), ("xt>A".toList),
          ("B</te".toList), ("xt>".toList)]).2.2.text = "AB".toList := by
  refine ⟨?_, by decide, by decide⟩
  intro tag pre content post chunks hs hopen hclose
  have hs2 : chunks.flatten = streamS tag pre content post := by
    rw [hs]
    simp [streamS, streamY, streamX, List.append_assoc]
  have hinv0 : tagInv tag pre content post [] ([], ⟨false, false, []⟩) := by
    have ho : 0 < (streamY tag pre).length := by simp [streamY, openTagOf]
    refine ⟨fun _ => rfl, fun ha _ => ?_, fun ha => ?_⟩
    · simp only [List.length_nil] at ha
      omega
    · simp only [List.length_nil] at ha
      omega
  have hfold := tagInv_foldl tag pre content post hopen hclose chunks []
    ([], ⟨false, false, []⟩) (by simpa [hs2] using List.prefix_rfl) hinv0
  simp only [List.nil_append, hs2, tagInv] at hfold
  obtain ⟨-, -, hCc⟩ := hfold
  have hcut : (streamY tag pre).length + content.length + (closeTagOf tag).length ≤
      (streamS tag pre content post).length := by
    simp only [streamS, streamX, List.length_append]
    omega
  have hres := hCc hcut
  have hrun : runTagStream tag chunks = chunks.foldl (pushChunk tag)
      ([], ⟨false, false, []⟩) := rfl
  rw [hrun, hres]
  exact ⟨rfl, rfl⟩

/-- Witness for C4: the general stream theorem applied to the concrete
stream `pre<text>AB</text>post` cut into four chunks that split both
markers. -/
theorem extractTag_stream_exact_witness :
    (("pre<te".toList ++ "xt>A".toList ++ "B</te".toList ++ "xt>post".toList =
        "pre".toList ++ openTagOf ("text".toList) ++ "AB".toList ++
          closeTagOf ("text".toList) ++ "post".toList) ∧
      (runTagStream ("text".toList)
        [("pre<te".toList), ("xt>A".toList), ("B</te".toList),
          ("xt>post".toList)]).2.text = "AB".toList ∧
      (runTagStream ("text".toList)
        [("pre<te".toList), ("xt>A".toList), ("B</te".toList),
          ("xt>post".toList)]).2.done = true) := by
  refine ⟨by decide, ?_⟩
  have h := extractTag_stream_exact.1 ("text".toList) ("pre".toList) ("AB".toList)
    ("post".toList)
    [("pre<te".toList), ("xt>A".toList), ("B</te".toList), ("xt>post".toList)]
    (by decide)
    (occursAt_unique_of_bounded _ _ _ (by decide) (by decide))
    (occursAt_unique_of_bounded _ _ _ (by decide) (by decide))
  exact h

end Polymarket
